import Mathlib

/-
Verification of the "Manipulating the Online Marketplace of Ideas"
repository: a shallow embedding of the targeting-sweep orchestration
(`synthetic_networks_targeting.ipynb`, cell 3), of the semantics of the
Python `statistics` / `math` library calls it makes, and of the parts of
the `bot_model` module that the notebooks call but whose source is not in
the repository snapshot (those are modelled from the specification).

Numeric values are modelled as rationals.  The floating-point square root
(`math.sqrt`, and the one inside `statistics.stdev`) is abstracted as an
arbitrary function `sqrtf : ℚ → ℚ`; every theorem touching it is
universally quantified over `sqrtf`.  Calls that can raise a Python
exception (`statistics.mean` on empty data, `statistics.stdev` on fewer
than two points, division by zero) are modelled in `Option`, with `none`
meaning the exception propagates and aborts the enclosing loop.
-/

namespace BotModel

/-- Semantics of `statistics.mean`: arithmetic mean of the data, raising
(`none`) on an empty list. -/
def stat_mean (xs : List ℚ) : Option ℚ :=
  if xs.length = 0 then none else some (xs.sum / xs.length)

/-- Squared deviation of `x` from a center `m`. -/
def sqDev (m x : ℚ) : ℚ := (x - m) * (x - m)

/-- Semantics of the sample variance underlying `statistics.stdev`:
sum of squared deviations from the mean divided by `n - 1`, raising
(`none`) on fewer than two data points. -/
def sampleVariance (xs : List ℚ) : Option ℚ :=
  if xs.length < 2 then none
  else some ((xs.map (sqDev (xs.sum / xs.length))).sum / ((xs.length - 1 : ℕ) : ℚ))

/-- Semantics of `statistics.stdev`: square root of the sample variance,
with the floating-point square root abstracted as `sqrtf`. -/
def stat_stdev (sqrtf : ℚ → ℚ) (xs : List ℚ) : Option ℚ :=
  (sampleVariance xs).map sqrtf

/-- One execution trace of `bot_model.simulation` in scalar mode, as seen
by the sweep loop: the value returned by the call with a given
targeting mode (`false` = random, `true` = preferential), `mu`, `gamma`,
at a given run index of the inner `for sim in range(n_runs)` loop. -/
abbrev SimOracle := Bool → ℚ → ℚ → ℕ → ℚ

/-- The inner run loop of cell 3 of `synthetic_networks_targeting.ipynb`
for one parameter point `(mu, gamma)`: per run, call the simulation once
with random and once with preferential targeting, append both qualities
and their ratio `qp / qr`.  The division `qp / qr` has no zero guard: a
zero random-targeting quality raises `ZeroDivisionError`, modelled as
`none` (the whole point's aggregation aborts). -/
def pointLists (sim : SimOracle) (mu gamma : ℚ) : ℕ → Option (List ℚ × List ℚ × List ℚ)
  | 0 => some ([], [], [])
  | n + 1 =>
    (pointLists sim mu gamma n).bind fun qs =>
      let qr := sim false mu gamma n
      let qp := sim true mu gamma n
      if qr = 0 then none
      else some (qs.1 ++ [qr], qs.2.1 ++ [qp], qs.2.2 ++ [qp / qr])

/-- The row of aggregate statistics passed to `bot_model.save_csv` for one
parameter point, exactly as built in cell 3:
`[gamma, mean(q_random), stdev(q_random)/sqrt(n_runs), mean(q_preferential),
stdev(q_preferential)/sqrt(n_runs), mean(q_ratio), stdev(q_ratio)/sqrt(n_runs)]`,
with `none` when any library call in the argument list raises. -/
def rowFor (sqrtf : ℚ → ℚ) (sim : SimOracle) (mu gamma : ℚ) (n_runs : ℕ) :
    Option (List ℚ) :=
  (pointLists sim mu gamma n_runs).bind fun qs =>
  (stat_mean qs.1).bind fun mr =>
  (stat_stdev sqrtf qs.1).bind fun sr =>
  (stat_mean qs.2.1).bind fun mp =>
  (stat_stdev sqrtf qs.2.1).bind fun sp =>
  (stat_mean qs.2.2).bind fun mq =>
  (stat_stdev sqrtf qs.2.2).bind fun sq =>
  some [gamma, mr, sr / sqrtf (n_runs : ℚ), mp, sp / sqrtf (n_runs : ℚ),
        mq, sq / sqrtf (n_runs : ℚ)]

/-- The gamma loop of cell 3 for one value of `mu`: the rows appended (in
order) to that mu's results file, one `save_csv` call per parameter point.
An exception at one point aborts the whole loop, so no later rows are
written. -/
def runSweep (sqrtf : ℚ → ℚ) (sim : SimOracle) (mu : ℚ) (n_runs : ℕ) :
    List ℚ → List (List ℚ)
  | [] => []
  | g :: gs =>
    match rowFor sqrtf sim mu g n_runs with
    | none => []
    | some row => row :: runSweep sqrtf sim mu n_runs gs

/-- Modelled from the spec: the sample standard deviation of the per-run
values ("the sample standard deviation of the corresponding n_runs
per-run values"), written from the specification's words for the
refinement comparison with the code's `statistics.stdev`. -/
def specSampleStdev (sqrtf : ℚ → ℚ) (xs : List ℚ) : ℚ :=
  sqrtf ((xs.map fun x => (x - xs.sum / xs.length) * (x - xs.sum / xs.length)).sum /
    ((xs.length - 1 : ℕ) : ℚ))

/-- Modelled from the spec: a standard error, "the sample standard
deviation of the corresponding n_runs per-run values divided by the
square root of n_runs". -/
def specStderr (sqrtf : ℚ → ℚ) (xs : List ℚ) (n_runs : ℕ) : ℚ :=
  specSampleStdev sqrtf xs / sqrtf (n_runs : ℚ)

/-- Modelled from the spec: the row layout of the persisted aggregate
results file, "one row per parameter point with columns: parameter value,
mean quality (random targeting), its standard error, mean quality
(preferential targeting), its standard error, mean quality ratio
(preferential/random), its standard error". -/
def specRow (sqrtf : ℚ → ℚ) (gamma : ℚ) (qr qp qrat : List ℚ) (n_runs : ℕ) : List ℚ :=
  [gamma,
   qr.sum / qr.length, specStderr sqrtf qr n_runs,
   qp.sum / qp.length, specStderr sqrtf qp n_runs,
   qrat.sum / qrat.length, specStderr sqrtf qrat n_runs]

/-- A concrete simulation trace used to separate the mean of per-run
ratios from the ratio of the means. -/
def simSep : SimOracle := fun mode _ _ i =>
  if mode then 1 else if i = 0 then 1 else 2

/-- A constant-quality simulation trace, used to instantiate theorems. -/
def oneOracle : SimOracle := fun _ _ _ _ => 1

/-- A simulation trace whose random-targeting run returns quality zero. -/
def zeroOracle : SimOracle := fun _ _ _ _ => 0

/- ## The `bot_model` core, modelled from the specification.

The module `bot_model` imported by both notebooks is not part of the
repository snapshot; the definitions below are modelled from the
specification (sections 3, 4.1-4.4, 6 of the spec).  Randomness is
abstracted as oracle streams: each random draw of a run is a function of
the timestep, so a `Rand` value is one realized execution trace. -/

/-- Role of an agent: genuine account or automated account. -/
inductive Role
  | human
  | bot
  deriving DecidableEq

/-- Whether a role is the human role. -/
def Role.isHuman : Role → Bool
  | .human => true
  | .bot => false

/-- Modelled from the spec: a Meme is an immutable record of quality,
fitness, origin role and creation timestep (spec section 3). -/
structure Meme where
  quality : ℚ
  fitness : ℚ
  origin : Role
  created : ℕ
  deriving DecidableEq

instance : Inhabited Meme := ⟨⟨0, 0, Role.human, 0⟩⟩

/-- Modelled from the spec: an Agent has a role, a bounded newest-first
feed, a follower list (who receives this agent's postings), and an
optional derived average-quality attribute written only by the export
Annotation step (spec sections 3 and 6). -/
structure Agent where
  role : Role
  feed : List Meme
  followers : List ℕ
  avq : Option ℚ
  deriving DecidableEq

instance : Inhabited Agent := ⟨⟨Role.human, [], [], none⟩⟩

/-- Modelled from the spec: the follower network; agents are identified
by their index in the list. -/
structure Net where
  agents : List Agent
  deriving DecidableEq

/-- Modelled from the spec: the configuration set
(n_humans, beta, alpha, phi, W, epsilon, sustained checks, step budget,
n_runs) of spec section 6. -/
structure Config where
  n_humans : ℕ
  beta : ℚ
  alpha : ℕ
  phi : ℚ
  w : ℕ
  eps : ℚ
  streak : ℕ
  budget : ℕ
  n_runs : ℕ

/-- One realized trace of all random draws of a run: acting-agent
selector, originate-vs-reshare coin (the mu-coin), uniform quality draw,
fitness-weighted reshare selector, and the follow coin used at network
construction.  Each is a function of the timestep (or of the agent pair),
abstracting the stochastic draws of the Python code. -/
structure Rand where
  pick : ℕ → ℕ
  orig : ℕ → Bool
  qdraw : ℕ → ℚ
  rechoice : ℕ → ℕ
  follow : ℕ → ℕ → Bool

/-- Modelled from the spec: the Network Generator (spec section 4.1).
It creates `n_humans` humans and `ceil(beta * n_humans)` bots with empty
feeds; the wiring (including the targeting strategy, which only changes
the distribution of the follow draws) is abstracted by the realized
`follow` trace, with self-loops excluded. -/
def genNet (cfg : Config) (_targeting : Bool) (r : Rand) : Net :=
  let nBots := (cfg.beta * cfg.n_humans).ceil.toNat
  let total := cfg.n_humans + nBots
  let role := fun i => if i < cfg.n_humans then Role.human else Role.bot
  let keep := fun i j => decide (j ≠ i) && r.follow i j
  ⟨(List.range total).map fun i =>
    ⟨role i, [], (List.range total).filter (keep i), none⟩⟩

/-- Modelled from the spec: the acting agent of a timestep, picked
uniformly at random among all agents (spec section 4.2, step 1). -/
def actorOf (r : Rand) (t : ℕ) (net : Net) : Agent :=
  net.agents.getD (r.pick t % net.agents.length) default

/-- Modelled from the spec: the meme produced by the acting agent at a
timestep (spec section 4.2, steps 2-3).  A bot always originates the
fixed deceptive meme with fitness `phi` (phi times the maximum human
quality 1) and no genuine quality; a human originates a fresh meme with
quality and fitness equal to the uniform draw (with probability mu,
realized by the `orig` coin, or as fallback on an empty feed), and
otherwise reshares a meme of its feed, the fitness-weighted choice being
realized by the `rechoice` draw. -/
def chooseMeme (cfg : Config) (r : Rand) (t : ℕ) (a : Agent) : Meme :=
  match a.role with
  | Role.bot => ⟨0, cfg.phi, Role.bot, t⟩
  | Role.human =>
    if r.orig t || a.feed.isEmpty then
      ⟨r.qdraw t, r.qdraw t, Role.human, t⟩
    else
      a.feed.getD (r.rechoice t % a.feed.length) default

/-- Modelled from the spec: insertion of a meme at the front of a feed,
evicting the oldest entries past capacity alpha (spec section 4.2,
step 4). -/
def pushFeed (alpha : ℕ) (m : Meme) (f : List Meme) : List Meme :=
  (m :: f).take alpha

/-- Modelled from the spec: propagation of the step's meme to the feed of
every follower of the acting agent; `i` is the index of the first agent
of the list. -/
def applyPush (alpha : ℕ) (m : Meme) (fl : List ℕ) : ℕ → List Agent → List Agent
  | _, [] => []
  | i, a :: rest =>
    (if i ∈ fl then { a with feed := pushFeed alpha m a.feed } else a) ::
      applyPush alpha m fl (i + 1) rest

/-- Modelled from the spec: one timestep of the Diffusion Engine (spec
section 4.2): pick the acting agent, create or reshare a meme, propagate
it to all followers' feeds with eviction past capacity alpha. -/
def step (cfg : Config) (r : Rand) (t : ℕ) (net : Net) : Net :=
  let a := actorOf r t net
  ⟨applyPush cfg.alpha (chooseMeme cfg r t a) a.followers 0 net.agents⟩

/-- Mean of a list of rationals (0 on an empty list). -/
def listMean (xs : List ℚ) : ℚ := xs.sum / xs.length

/-- Modelled from the spec: all memes currently held in the feeds of
human agents. -/
def humanMemes (net : Net) : List Meme :=
  ((net.agents.filter fun a => a.role.isHuman).map Agent.feed).flatten

/-- Modelled from the spec: the human-side population average quality of
currently held feed contents (spec section 4.2, step 5). -/
def humanAvgQuality (net : Net) : ℚ :=
  listMean ((humanMemes net).map Meme.quality)

/-- Modelled from the spec: one Convergence Monitor check on the history
of per-step human-average-quality values (newest first): the relative
change between the sliding-window mean at the current step and at W steps
earlier is below epsilon (spec section 4.3). -/
def relCheck (cfg : Config) (hist : List ℚ) : Bool :=
  decide (2 * cfg.w ≤ hist.length) &&
  decide (|listMean (hist.take cfg.w) - listMean ((hist.drop cfg.w).take cfg.w)| ≤
    cfg.eps * |listMean ((hist.drop cfg.w).take cfg.w)|)

/-- Modelled from the spec: the Convergence Monitor declares convergence
when the windowed check has held for a sustained number of consecutive
checks (spec section 4.3). -/
def monitorConverged (cfg : Config) (hist : List ℚ) : Bool :=
  (List.range (cfg.streak + 1)).all fun j => relCheck cfg (hist.drop j)

/-- Terminal state of a run: steady state reached, or hard step budget
reached without convergence. -/
inductive RunState
  | converged
  | exhausted
  deriving DecidableEq

/-- Result of the per-run loop of the Diffusion Engine: final network,
history of per-step human-average-quality values (newest first), number
of executed timesteps, and the terminal state. -/
structure LoopOut where
  net : Net
  hist : List ℚ
  time : ℕ
  state : RunState
  deriving DecidableEq

/-- Modelled from the spec: the Running state of the Diffusion Engine
(spec section 4.2): repeat timesteps, notify the Convergence Monitor
after each step, stop as Converged when it signals stability, stop as
Exhausted when the hard step budget is spent. -/
def runloop (cfg : Config) (r : Rand) : ℕ → ℕ → Net → List ℚ → LoopOut
  | 0, t, net, hist => ⟨net, hist, t, RunState.exhausted⟩
  | fuel + 1, t, net, hist =>
    let net' := step cfg r t net
    let hist' := humanAvgQuality net' :: hist
    if monitorConverged cfg hist' then ⟨net', hist', t + 1, RunState.converged⟩
    else runloop cfg r fuel (t + 1) net' hist'

/-- Result of one full simulation cycle: the run's scalar quality (the
final-window-averaged human feed quality), its terminal state, the number
of executed steps and the final network. -/
structure RunOut where
  quality : ℚ
  state : RunState
  steps : ℕ
  net : Net

/-- Modelled from the spec: one full cycle (fresh Network Generator, then
Diffusion Engine until Converged or Exhausted); the run's result is the
final-window-averaged human feed quality (spec sections 4.2 and 4.4). -/
def oneRun (cfg : Config) (targeting : Bool) (r : Rand) : RunOut :=
  let out := runloop cfg r cfg.budget 0 (genNet cfg targeting r) []
  ⟨listMean (out.hist.take cfg.w), out.state, out.time, out.net⟩

/-- Modelled from the spec: `bot_model.simulation` (spec section 4.4):
with `return_net` it skips the multi-run loop and returns the single-run
final network alongside its quality; otherwise it runs `n_runs`
independent cycles and returns the mean of the per-run qualities.
`rs i` is the realized random trace of cycle `i`. -/
def simulation (cfg : Config) (targeting : Bool) (return_net : Bool)
    (rs : ℕ → Rand) : ℚ ⊕ (ℚ × Net) :=
  if return_net then
    let o := oneRun cfg targeting (rs 0)
    Sum.inr (o.quality, o.net)
  else
    Sum.inl (listMean ((List.range cfg.n_runs).map fun i => (oneRun cfg targeting (rs i)).quality))

/-- Modelled from the spec: the final average feed quality of one agent,
written by the export Annotation step. -/
def feedAvgQuality (a : Agent) : ℚ := listMean (a.feed.map Meme.quality)

/-- Modelled from the spec: `bot_model.add_avq_to_net`, the external
Annotation step: it writes the derived average-quality attribute on every
node of the finished network before GML export (spec sections 4.4
and 6). -/
def add_avq_to_net (net : Net) : Net :=
  ⟨net.agents.map fun a => { a with avq := some (feedAvgQuality a) }⟩

/-- The follower edges of the exported graph, as bare index pairs (the
export carries no edge attributes); `i` is the index of the first
agent. -/
def edgesFrom : ℕ → List Agent → List (ℕ × ℕ)
  | _, [] => []
  | i, a :: rest => (a.followers.map fun j => (i, j)) ++ edgesFrom (i + 1) rest

/-- The exported follower edges of a network. -/
def exportEdges (net : Net) : List (ℕ × ℕ) := edgesFrom 0 net.agents

/-- The state trajectory of a run that never stops: network and history
after `k` timesteps of the Diffusion Engine. -/
def runTrace (cfg : Config) (r : Rand) (init : Net) : ℕ → Net × List ℚ
  | 0 => (init, [])
  | k + 1 =>
    let p := runTrace cfg r init k
    let net' := step cfg r k p.1
    (net', humanAvgQuality net' :: p.2)

/-- Ghost arrival logs of a run: for each agent, the unbounded list of
all memes ever propagated to it, newest first; `i` indexes the first
agent. -/
def applyLog (m : Meme) (fl : List ℕ) : ℕ → List (List Meme) → List (List Meme)
  | _, [] => []
  | i, l :: rest => (if i ∈ fl then m :: l else l) :: applyLog m fl (i + 1) rest

/-- The ghost arrival logs after `k` timesteps. -/
def logsAt (cfg : Config) (r : Rand) (init : Net) : ℕ → List (List Meme)
  | 0 => init.agents.map fun _ => []
  | k + 1 =>
    let net := (runTrace cfg r init k).1
    let a := actorOf r k net
    applyLog (chooseMeme cfg r k a) a.followers 0 (logsAt cfg r init k)

/-- Feed-quality invariant: every meme held in any feed has quality in
the unit interval. -/
def qualOK (net : Net) : Prop :=
  ∀ a ∈ net.agents, ∀ m ∈ a.feed, 0 ≤ m.quality ∧ m.quality ≤ 1

/-- A tiny configuration (one human, no bots, step budget 1) used to
instantiate theorems. -/
def cfg1 : Config := ⟨1, 0, 15, 1, 5, 1 / 100, 2, 1, 2⟩

/-- A concrete realized random trace used to instantiate theorems. -/
def rand1 : Rand := ⟨fun _ => 0, fun _ => true, fun _ => 1 / 2, fun _ => 0, fun _ _ => false⟩

/-- A configuration with an exhausted (zero) step budget, used to
instantiate theorems. -/
def cfg0 : Config := ⟨1, 0, 15, 1, 5, 1 / 100, 2, 0, 2⟩

/- ### Characterization lemmas for the run loop -/

theorem pointLists_eq_of_nonzero (sim : SimOracle) (mu gamma : ℚ) :
    ∀ n : ℕ, (∀ i < n, sim false mu gamma i ≠ 0) →
      pointLists sim mu gamma n =
        some ((List.range n).map fun i => sim false mu gamma i,
              (List.range n).map fun i => sim true mu gamma i,
              (List.range n).map fun i => sim true mu gamma i / sim false mu gamma i) := by
  intro n
  induction n with
  | zero => intro _; simp [pointLists]
  | succ n ih =>
    intro h
    have hn : ∀ i < n, sim false mu gamma i ≠ 0 := fun i hi => h i (Nat.lt_succ_of_lt hi)
    have hlast : sim false mu gamma n ≠ 0 := h n (Nat.lt_succ_self n)
    simp only [pointLists, ih hn, Option.bind_some]
    simp [hlast, List.range_succ]

theorem pointLists_isSome_iff (sim : SimOracle) (mu gamma : ℚ) :
    ∀ n : ℕ, (pointLists sim mu gamma n).isSome ↔ ∀ i < n, sim false mu gamma i ≠ 0 := by
  intro n
  induction n with
  | zero => simp [pointLists]
  | succ n ih =>
    constructor
    · intro h
      rcases Option.isSome_iff_exists.mp h with ⟨v, hv⟩
      rw [pointLists] at hv
      rcases Option.bind_eq_some.mp hv with ⟨qs, hqs, hrest⟩
      have hsome : (pointLists sim mu gamma n).isSome := by
        rw [hqs]; rfl
      have hn := ih.mp hsome
      intro i hi
      rcases Nat.lt_succ_iff_lt_or_eq.mp hi with hlt | heq
      · exact hn i hlt
      · subst heq
        intro hzero
        simp only [hzero, if_pos rfl] at hrest
        exact (Option.some_ne_none v hrest.symm).elim
    · intro h
      rw [pointLists_eq_of_nonzero sim mu gamma (n + 1) h]
      rfl

theorem pointLists_lengths (sim : SimOracle) (mu gamma : ℚ) (n : ℕ)
    (qr qp qrat : List ℚ) (h : pointLists sim mu gamma n = some (qr, qp, qrat)) :
    qr.length = n ∧ qp.length = n ∧ qrat.length = n := by
  have hsome : (pointLists sim mu gamma n).isSome := by rw [h]; rfl
  have hnz := (pointLists_isSome_iff sim mu gamma n).mp hsome
  rw [pointLists_eq_of_nonzero sim mu gamma n hnz] at h
  have h' := Option.some.injEq _ _ ▸ h
  simp only [Option.some.injEq, Prod.mk.injEq] at h
  rcases h with ⟨h1, h2, h3⟩
  constructor
  · rw [← h1]; simp
  constructor
  · rw [← h2]; simp
  · rw [← h3]; simp

theorem rowFor_some_pointLists (sqrtf : ℚ → ℚ) (sim : SimOracle) (mu gamma : ℚ)
    (n : ℕ) (row : List ℚ) (h : rowFor sqrtf sim mu gamma n = some row) :
    ∃ qr qp qrat, pointLists sim mu gamma n = some (qr, qp, qrat) := by
  rw [rowFor] at h
  rcases Option.bind_eq_some.mp h with ⟨⟨qr, qp, qrat⟩, hqs, _⟩
  exact ⟨qr, qp, qrat, hqs⟩

theorem stat_mean_eq (xs : List ℚ) (m : ℚ) (h : stat_mean xs = some m) :
    xs.length ≠ 0 ∧ m = xs.sum / xs.length := by
  unfold stat_mean at h
  split at h
  · exact absurd h (by simp)
  · exact ⟨by assumption, ((Option.some.injEq _ _).mp h).symm⟩

theorem stat_stdev_eq (sqrtf : ℚ → ℚ) (xs : List ℚ) (s : ℚ)
    (h : stat_stdev sqrtf xs = some s) :
    2 ≤ xs.length ∧
      s = sqrtf ((xs.map (sqDev (xs.sum / xs.length))).sum / ((xs.length - 1 : ℕ) : ℚ)) := by
  unfold stat_stdev sampleVariance at h
  split at h
  · exact absurd h (by simp)
  · refine ⟨Nat.le_of_not_lt (by assumption), ?_⟩
    simp only [Option.map_some', Option.some.injEq] at h
    exact h.symm

/-- Full destructuring of a successfully computed results row. -/
theorem rowFor_eq (sqrtf : ℚ → ℚ) (sim : SimOracle) (mu gamma : ℚ) (n : ℕ)
    (row : List ℚ) (h : rowFor sqrtf sim mu gamma n = some row) :
    ∃ qr qp qrat : List ℚ,
      pointLists sim mu gamma n = some (qr, qp, qrat) ∧
      qr.length = n ∧ qp.length = n ∧ qrat.length = n ∧ 2 ≤ n ∧
      row = [gamma,
        qr.sum / qr.length,
        sqrtf ((qr.map (sqDev (qr.sum / qr.length))).sum / ((qr.length - 1 : ℕ) : ℚ)) /
          sqrtf (n : ℚ),
        qp.sum / qp.length,
        sqrtf ((qp.map (sqDev (qp.sum / qp.length))).sum / ((qp.length - 1 : ℕ) : ℚ)) /
          sqrtf (n : ℚ),
        qrat.sum / qrat.length,
        sqrtf ((qrat.map (sqDev (qrat.sum / qrat.length))).sum / ((qrat.length - 1 : ℕ) : ℚ)) /
          sqrtf (n : ℚ)] := by
  rw [rowFor] at h
  rcases Option.bind_eq_some.mp h with ⟨⟨qr, qp, qrat⟩, hqs, h⟩
  dsimp only at h
  rcases Option.bind_eq_some.mp h with ⟨mr, hmr, h⟩
  rcases Option.bind_eq_some.mp h with ⟨sr, hsr, h⟩
  rcases Option.bind_eq_some.mp h with ⟨mp, hmp, h⟩
  rcases Option.bind_eq_some.mp h with ⟨sp, hsp, h⟩
  rcases Option.bind_eq_some.mp h with ⟨mq, hmq, h⟩
  rcases Option.bind_eq_some.mp h with ⟨sq, hsq, h⟩
  have hrow := ((Option.some.injEq _ _).mp h).symm
  rcases pointLists_lengths sim mu gamma n qr qp qrat hqs with ⟨hlr, hlp, hlq⟩
  rcases stat_mean_eq qr mr hmr with ⟨hr0, hmr'⟩
  rcases stat_stdev_eq sqrtf qr sr hsr with ⟨hr2, hsr'⟩
  rcases stat_mean_eq qp mp hmp with ⟨_, hmp'⟩
  rcases stat_stdev_eq sqrtf qp sp hsp with ⟨_, hsp'⟩
  rcases stat_mean_eq qrat mq hmq with ⟨_, hmq'⟩
  rcases stat_stdev_eq sqrtf qrat sq hsq with ⟨_, hsq'⟩
  refine ⟨qr, qp, qrat, hqs, hlr, hlp, hlq, hlr ▸ hr2, ?_⟩
  rw [hrow, hmr', hsr', hmp', hsp', hmq', hsq']

/-- The gamma loop writes the rows pointwise when no point raises. -/
theorem runSweep_eq_map (sqrtf : ℚ → ℚ) (sim : SimOracle) (mu : ℚ) (n : ℕ) :
    ∀ gammas : List ℚ, (∀ g ∈ gammas, (rowFor sqrtf sim mu g n).isSome) →
      runSweep sqrtf sim mu n gammas =
        gammas.map fun g => (rowFor sqrtf sim mu g n).getD [] := by
  intro gammas
  induction gammas with
  | nil => intro _; rfl
  | cons g gs ih =>
    intro h
    have hg : (rowFor sqrtf sim mu g n).isSome := h g (List.mem_cons_self g gs)
    rcases Option.isSome_iff_exists.mp hg with ⟨row, hrow⟩
    simp [runSweep, hrow, ih fun x hx => h x (List.mem_cons_of_mem g hx)]

theorem sqDev_eq (m : ℚ) : sqDev m = fun x => (x - m) * (x - m) := rfl

/- ### Claim theorems about the targeting sweep -/

/-- Claim C1: for every parameter point (mu, gamma) of the targeting
sweep, the orchestrator runs exactly n_runs cycles, in each cycle calling
the simulation once with random and once with preferential targeting at
the same mu and gamma, and the reported mean quality of each targeting
mode is the arithmetic mean of that mode's n_runs per-run results. -/
theorem sweep_point_runs_and_means (sqrtf : ℚ → ℚ) (sim : SimOracle) (mu gamma : ℚ)
    (n_runs : ℕ) (row : List ℚ) (h : rowFor sqrtf sim mu gamma n_runs = some row) :
    pointLists sim mu gamma n_runs =
      some ((List.range n_runs).map fun i => sim false mu gamma i,
            (List.range n_runs).map fun i => sim true mu gamma i,
            (List.range n_runs).map fun i => sim true mu gamma i / sim false mu gamma i) ∧
    row[1]? = some (((List.range n_runs).map fun i => sim false mu gamma i).sum / (n_runs : ℚ)) ∧
    row[3]? = some (((List.range n_runs).map fun i => sim true mu gamma i).sum / (n_runs : ℚ)) := by
  rcases rowFor_eq sqrtf sim mu gamma n_runs row h with
    ⟨qr, qp, qrat, hqs, hlr, hlp, _, _, hrow⟩
  have hsome : (pointLists sim mu gamma n_runs).isSome := by rw [hqs]; rfl
  have hnz := (pointLists_isSome_iff sim mu gamma n_runs).mp hsome
  have heq := pointLists_eq_of_nonzero sim mu gamma n_runs hnz
  have hql : qr = (List.range n_runs).map fun i => sim false mu gamma i := by
    rw [hqs] at heq
    exact congrArg (fun p => p.1) ((Option.some.injEq _ _).mp heq)
  have hpl : qp = (List.range n_runs).map fun i => sim true mu gamma i := by
    rw [hqs] at heq
    exact congrArg (fun p => p.2.1) ((Option.some.injEq _ _).mp heq)
  refine ⟨heq, ?_, ?_⟩
  · rw [hrow]
    simp only [List.getElem?_cons_succ, List.getElem?_cons_zero, Option.some.injEq]
    subst hql
    rw [hlr]
  · rw [hrow]
    simp only [List.getElem?_cons_succ, List.getElem?_cons_zero, Option.some.injEq]
    subst hpl
    rw [hlp]

/-- Witness for C1 at a concrete trace. -/
theorem sweep_point_runs_and_means_witness :
    rowFor (fun x => x) oneOracle 0 0 2 = some [0, 1, 0, 1, 0, 1, 0] ∧
    pointLists oneOracle 0 0 2 =
      some ((List.range 2).map fun i => oneOracle false 0 0 i,
            (List.range 2).map fun i => oneOracle true 0 0 i,
            (List.range 2).map fun i => oneOracle true 0 0 i / oneOracle false 0 0 i) :=
  ⟨by simp [rowFor, pointLists, stat_mean, stat_stdev, sampleVariance, sqDev, oneOracle],
   (sweep_point_runs_and_means (fun x => x) oneOracle 0 0 2 [0, 1, 0, 1, 0, 1, 0]
     (by simp [rowFor, pointLists, stat_mean, stat_stdev, sampleVariance, sqDev, oneOracle])).1⟩

/-- Claim C2: for every parameter point the persisted file gains exactly
one row, whose entries are, in order: gamma, the mean quality under
random targeting, its standard error, the mean quality under preferential
targeting, its standard error, the mean quality ratio, its standard
error, each standard error being the sample standard deviation of the
n_runs per-run values divided by the square root of n_runs. -/
theorem results_row_format (sqrtf : ℚ → ℚ) (sim : SimOracle) (mu gamma : ℚ)
    (n_runs : ℕ) (row : List ℚ) (h : rowFor sqrtf sim mu gamma n_runs = some row) :
    (∃ qr qp qrat : List ℚ,
        pointLists sim mu gamma n_runs = some (qr, qp, qrat) ∧
        row = specRow sqrtf gamma qr qp qrat n_runs) ∧
    ∀ gammas : List ℚ, (∀ g ∈ gammas, (rowFor sqrtf sim mu g n_runs).isSome) →
      runSweep sqrtf sim mu n_runs gammas =
        gammas.map fun g => (rowFor sqrtf sim mu g n_runs).getD [] := by
  constructor
  · rcases rowFor_eq sqrtf sim mu gamma n_runs row h with
      ⟨qr, qp, qrat, hqs, _, _, _, _, hrow⟩
    exact ⟨qr, qp, qrat, hqs, by
      rw [hrow]
      simp [specRow, specStderr, specSampleStdev, sqDev_eq]⟩
  · exact runSweep_eq_map sqrtf sim mu n_runs

/-- Witness for C2 at a concrete trace: the sweep over the single
parameter point gamma = 0 appends exactly its one row. -/
theorem results_row_format_witness :
    rowFor (fun x => x) oneOracle 0 0 2 = some [0, 1, 0, 1, 0, 1, 0] ∧
    runSweep (fun x => x) oneOracle 0 2 [0] =
      [0].map fun g => (rowFor (fun x => x) oneOracle 0 g 2).getD [] :=
  ⟨by simp [rowFor, pointLists, stat_mean, stat_stdev, sampleVariance, sqDev, oneOracle],
   (results_row_format (fun x => x) oneOracle 0 0 2 [0, 1, 0, 1, 0, 1, 0]
     (by simp [rowFor, pointLists, stat_mean, stat_stdev, sampleVariance, sqDev, oneOracle])).2
     [0]
     (by simp [rowFor, pointLists, stat_mean, stat_stdev, sampleVariance, sqDev, oneOracle])⟩

/-- Claim C3: the persisted mean-quality-ratio statistic is the
arithmetic mean over the n_runs cycles of the per-run ratio
(preferential quality divided by the paired random quality), and not the
ratio of the two mean qualities, from which it differs on the concrete
trace `simSep`. -/
theorem ratio_stat_mean_of_per_run_ratios (sqrtf : ℚ → ℚ) (sim : SimOracle)
    (mu gamma : ℚ) (n_runs : ℕ) (row : List ℚ)
    (h : rowFor sqrtf sim mu gamma n_runs = some row) :
    row[5]? =
      some (((List.range n_runs).map fun i =>
        sim true mu gamma i / sim false mu gamma i).sum / (n_runs : ℚ)) ∧
    ((rowFor (fun x => x) simSep 0 0 2).bind fun r => r[5]?) = some (3 / 4 : ℚ) ∧
    (3 / 4 : ℚ) ≠
      (((List.range 2).map fun i => simSep true 0 0 i).sum / (2 : ℚ)) /
        (((List.range 2).map fun i => simSep false 0 0 i).sum / (2 : ℚ)) := by
  refine ⟨?_, ?_, ?_⟩
  · rcases rowFor_eq sqrtf sim mu gamma n_runs row h with
      ⟨qr, qp, qrat, hqs, _, _, hlq, _, hrow⟩
    have hsome : (pointLists sim mu gamma n_runs).isSome := by rw [hqs]; rfl
    have hnz := (pointLists_isSome_iff sim mu gamma n_runs).mp hsome
    have heq := pointLists_eq_of_nonzero sim mu gamma n_runs hnz
    have hqq : qrat = (List.range n_runs).map fun i =>
        sim true mu gamma i / sim false mu gamma i := by
      rw [hqs] at heq
      exact congrArg (fun p => p.2.2) ((Option.some.injEq _ _).mp heq)
    rw [hrow]
    simp only [List.getElem?_cons_succ, List.getElem?_cons_zero, Option.some.injEq]
    subst hqq
    rw [hlq]
  · simp [rowFor, pointLists, stat_mean, stat_stdev, sampleVariance, sqDev, simSep]
    norm_num
  · norm_num [simSep, List.range_succ]

/-- Witness for C3 at a concrete trace. -/
theorem ratio_stat_mean_of_per_run_ratios_witness :
    rowFor (fun x => x) oneOracle 0 0 2 = some [0, 1, 0, 1, 0, 1, 0] ∧
    ([(0 : ℚ), 1, 0, 1, 0, 1, 0])[5]? =
      some (((List.range 2).map fun i =>
        oneOracle true 0 0 i / oneOracle false 0 0 i).sum / (2 : ℚ)) :=
  ⟨by simp [rowFor, pointLists, stat_mean, stat_stdev, sampleVariance, sqDev, oneOracle],
   (ratio_stat_mean_of_per_run_ratios (fun x => x) oneOracle 0 0 2 [0, 1, 0, 1, 0, 1, 0]
     (by simp [rowFor, pointLists, stat_mean, stat_stdev, sampleVariance, sqDev,
       oneOracle])).1⟩

/-- Claim C9: the per-run quality ratio is computed with no zero guard,
so the parameter point's aggregation is well-defined exactly when every
random-targeting run returns a nonzero quality; if any random-run
quality is zero the whole point aborts and no row is written. -/
theorem ratio_division_no_zero_guard (sim : SimOracle) (mu gamma : ℚ) (n_runs : ℕ) :
    ((pointLists sim mu gamma n_runs).isSome ↔
      ∀ i < n_runs, sim false mu gamma i ≠ 0) ∧
    ∀ sqrtf : ℚ → ℚ, ∀ i < n_runs, sim false mu gamma i = 0 →
      rowFor sqrtf sim mu gamma n_runs = none := by
  refine ⟨pointLists_isSome_iff sim mu gamma n_runs, ?_⟩
  intro sqrtf i hi hzero
  have hnone : pointLists sim mu gamma n_runs = none := by
    by_contra hne
    have hsome : (pointLists sim mu gamma n_runs).isSome :=
      Option.ne_none_iff_isSome.mp hne
    exact (pointLists_isSome_iff sim mu gamma n_runs).mp hsome i hi hzero
  rw [rowFor, hnone]
  rfl

/-- Witness for C9 at a concrete trace whose random-targeting runs all
return quality zero. -/
theorem ratio_division_no_zero_guard_witness :
    (0 < 2 ∧ zeroOracle false 0 0 0 = 0) ∧
    rowFor (fun x => x) zeroOracle 0 0 2 = none :=
  ⟨⟨by decide, by simp [zeroOracle]⟩,
   (ratio_division_no_zero_guard zeroOracle 0 0 2).2 (fun x => x) 0 (by decide)
     (by simp [zeroOracle])⟩

/-- Claim C10: the aggregation computes sample standard deviations,
which need at least two data points, so a sweep with n_runs below two
raises before the row is appended (no partial row), while n_runs at
least two (with nonzero random qualities) produces the row. -/
theorem stderr_requires_two_runs (sqrtf : ℚ → ℚ) (sim : SimOracle) (mu gamma : ℚ)
    (n_runs : ℕ) :
    (n_runs < 2 → rowFor sqrtf sim mu gamma n_runs = none) ∧
    ((∀ i < n_runs, sim false mu gamma i ≠ 0) → 2 ≤ n_runs →
      (rowFor sqrtf sim mu gamma n_runs).isSome) := by
  constructor
  · intro hn
    interval_cases n_runs
    · simp [rowFor, pointLists, stat_mean]
    · rw [rowFor, pointLists, pointLists]
      by_cases h0 : sim false mu gamma 0 = 0
      · simp [h0]
      · simp [h0, stat_mean, stat_stdev, sampleVariance]
  · intro hnz hn
    rw [rowFor, pointLists_eq_of_nonzero sim mu gamma n_runs hnz]
    have hne : n_runs ≠ 0 := by omega
    have hlt : ¬ n_runs < 2 := by omega
    simp [stat_mean, stat_stdev, sampleVariance, hne, hlt]

/-- Witness for C10 at n_runs = 1: the aggregation raises and no row is
written. -/
theorem stderr_requires_two_runs_witness :
    1 < 2 ∧ rowFor (fun x => x) oneOracle 0 0 1 = none :=
  ⟨by decide,
   (stderr_requires_two_runs (fun x => x) oneOracle 0 0 1).1 (by decide)⟩

/- ### Claim theorems about the modelled bot_model core -/

theorem edgesFrom_map (f : Agent → Agent) (hf : ∀ a, (f a).followers = a.followers) :
    ∀ (i : ℕ) (l : List Agent), edgesFrom i (l.map f) = edgesFrom i l := by
  intro i l
  induction l generalizing i with
  | nil => rfl
  | cons a rest ih => simp [edgesFrom, hf, ih]

/-- Claim C4 (spec-modelled): with return_net requested, the simulation
entry point performs a single run, whose result it returns as the pair of
the run's quality and its final network rather than the averaged scalar;
only the first cycle's random draws are consumed. -/
theorem simulation_return_net_single_run (cfg : Config) (targeting : Bool)
    (rs : ℕ → Rand) :
    simulation cfg targeting true rs =
      Sum.inr ((oneRun cfg targeting (rs 0)).quality, (oneRun cfg targeting (rs 0)).net) ∧
    ∀ rs' : ℕ → Rand, rs' 0 = rs 0 →
      simulation cfg targeting true rs' = simulation cfg targeting true rs := by
  constructor
  · rfl
  · intro rs' h
    simp [simulation, h]

/-- Witness for C4 at a concrete configuration and trace. -/
theorem simulation_return_net_single_run_witness :
    (fun _ : ℕ => rand1) 0 = (fun _ : ℕ => rand1) 0 ∧
    simulation cfg1 false true (fun _ => rand1) = simulation cfg1 false true (fun _ => rand1) :=
  ⟨rfl,
   (simulation_return_net_single_run cfg1 false (fun _ => rand1)).2 (fun _ => rand1) rfl⟩

/-- Claim C5 (spec-modelled): the annotation step writes the derived
average-feed-quality attribute on every node of the finished network and
changes nothing else: roles, feeds and follower lists are untouched, and
the exported edges are the same bare follower pairs with no additional
attributes. -/
theorem add_avq_frame (net : Net) :
    (add_avq_to_net net).agents =
      net.agents.map (fun a => ⟨a.role, a.feed, a.followers, some (feedAvgQuality a)⟩) ∧
    (∀ a ∈ (add_avq_to_net net).agents, a.avq.isSome) ∧
    exportEdges (add_avq_to_net net) = exportEdges net := by
  refine ⟨rfl, ?_, ?_⟩
  · intro a ha
    rcases List.mem_map.mp ha with ⟨b, _, rfl⟩
    rfl
  · show edgesFrom 0 (net.agents.map fun a => { a with avq := some (feedAvgQuality a) }) =
      edgesFrom 0 net.agents
    exact edgesFrom_map (fun a => { a with avq := some (feedAvgQuality a) })
      (fun a => rfl) 0 net.agents

/-- Witness for C5 at a concrete network. -/
theorem add_avq_frame_witness :
    exportEdges (add_avq_to_net (genNet cfg1 false rand1)) =
      exportEdges (genNet cfg1 false rand1) :=
  (add_avq_frame (genNet cfg1 false rand1)).2.2

/-- If the monitor never signals along the remaining budget, the engine
loop runs the whole budget down and stops in the Exhausted state, on the
state trajectory of the run. -/
theorem runloop_exhausted (cfg : Config) (r : Rand) (init : Net) :
    ∀ fuel t : ℕ,
      (∀ j < fuel, monitorConverged cfg (runTrace cfg r init (t + j + 1)).2 = false) →
      runloop cfg r fuel t (runTrace cfg r init t).1 (runTrace cfg r init t).2 =
        ⟨(runTrace cfg r init (t + fuel)).1, (runTrace cfg r init (t + fuel)).2,
         t + fuel, RunState.exhausted⟩ := by
  intro fuel
  induction fuel with
  | zero => intro t _; simp [runloop]
  | succ fuel ih =>
    intro t h
    have hm : monitorConverged cfg (runTrace cfg r init (t + 1)).2 = false := by
      have := h 0 (Nat.succ_pos fuel)
      simpa using this
    rw [runloop]
    have hm' : monitorConverged cfg
        (humanAvgQuality (step cfg r t (runTrace cfg r init t).1) ::
          (runTrace cfg r init t).2) = false := hm
    simp only [hm', Bool.false_eq_true, if_false]
    have ih' := ih (t + 1) fun j hj => by
      have := h (j + 1) (Nat.succ_lt_succ hj)
      simpa [Nat.add_assoc, Nat.add_comm 1 j] using this
    have harg : runloop cfg r fuel (t + 1)
        (step cfg r t (runTrace cfg r init t).1)
        (humanAvgQuality (step cfg r t (runTrace cfg r init t).1) ::
          (runTrace cfg r init t).2) =
        ⟨(runTrace cfg r init (t + 1 + fuel)).1, (runTrace cfg r init (t + 1 + fuel)).2,
         t + 1 + fuel, RunState.exhausted⟩ := ih'
    rw [harg]
    have : t + 1 + fuel = t + (fuel + 1) := by omega
    rw [this]

/-- Claim C6 (spec-modelled): a run that reaches the hard step budget
with the Convergence Monitor never signalling still returns its quality
metric, flagged with the Exhausted outcome, which is distinguishable
from the Converged outcome in the returned value. -/
theorem exhausted_run_flagged (cfg : Config) (targeting : Bool) (r : Rand)
    (h : ∀ k < cfg.budget,
      monitorConverged cfg (runTrace cfg r (genNet cfg targeting r) (k + 1)).2 = false) :
    (oneRun cfg targeting r).state = RunState.exhausted ∧
    (oneRun cfg targeting r).quality =
      listMean ((runTrace cfg r (genNet cfg targeting r) cfg.budget).2.take cfg.w) ∧
    RunState.exhausted ≠ RunState.converged := by
  have hrl : runloop cfg r cfg.budget 0 (genNet cfg targeting r) [] =
      ⟨(runTrace cfg r (genNet cfg targeting r) (0 + cfg.budget)).1,
       (runTrace cfg r (genNet cfg targeting r) (0 + cfg.budget)).2,
       0 + cfg.budget, RunState.exhausted⟩ :=
    runloop_exhausted cfg r (genNet cfg targeting r) cfg.budget 0
      fun j hj => by simpa using h j hj
  refine ⟨?_, ?_, by simp⟩
  · show (runloop cfg r cfg.budget 0 (genNet cfg targeting r) []).state = RunState.exhausted
    rw [hrl]
  · show listMean ((runloop cfg r cfg.budget 0 (genNet cfg targeting r) []).hist.take cfg.w) =
      listMean ((runTrace cfg r (genNet cfg targeting r) cfg.budget).2.take cfg.w)
    rw [hrl]
    simp

/-- Witness for C6 at a configuration whose step budget is already
exhausted. -/
theorem exhausted_run_flagged_witness :
    (oneRun cfg0 false rand1).state = RunState.exhausted :=
  (exhausted_run_flagged cfg0 false rand1 fun k hk => absurd hk (Nat.not_lt_zero k)).1

theorem list_sum_nonneg (xs : List ℚ) (h : ∀ x ∈ xs, 0 ≤ x) : 0 ≤ xs.sum := by
  induction xs with
  | nil => simp
  | cons a l ih =>
    simp only [List.sum_cons]
    have ha := h a (by simp)
    have hl := ih fun x hx => h x (by simp [hx])
    linarith

theorem list_sum_le_length (xs : List ℚ) (h : ∀ x ∈ xs, x ≤ 1) :
    xs.sum ≤ (xs.length : ℚ) := by
  induction xs with
  | nil => simp
  | cons a l ih =>
    simp only [List.sum_cons, List.length_cons]
    have ha := h a (by simp)
    have hl := ih fun x hx => h x (by simp [hx])
    push_cast
    linarith

theorem listMean_unit (xs : List ℚ) (h : ∀ x ∈ xs, 0 ≤ x ∧ x ≤ 1) :
    0 ≤ listMean xs ∧ listMean xs ≤ 1 := by
  by_cases h0 : xs.length = 0
  · simp [listMean, h0]
  · have hpos : (0 : ℚ) < xs.length := by
      have : 0 < xs.length := Nat.pos_of_ne_zero h0
      exact_mod_cast this
    constructor
    · exact div_nonneg (list_sum_nonneg xs fun x hx => (h x hx).1) (le_of_lt hpos)
    · rw [listMean, div_le_one hpos]
      exact list_sum_le_length xs fun x hx => (h x hx).2

/-- Every agent of the post-propagation network is an agent of the old
network, unchanged or with the step's meme pushed onto its feed. -/
theorem applyPush_mem (alpha : ℕ) (m : Meme) (fl : List ℕ) :
    ∀ (i : ℕ) (l : List Agent), ∀ a' ∈ applyPush alpha m fl i l,
      ∃ a ∈ l, a' = a ∨ a' = { a with feed := pushFeed alpha m a.feed } := by
  intro i l
  induction l generalizing i with
  | nil => simp [applyPush]
  | cons a rest ih =>
    intro a' ha'
    rw [applyPush] at ha'
    rcases List.mem_cons.mp ha' with h | h
    · by_cases hc : i ∈ fl
      · exact ⟨a, by simp, Or.inr (by simp only [h, if_pos hc])⟩
      · exact ⟨a, by simp, Or.inl (by simp only [h, if_neg hc])⟩
    · rcases ih (i + 1) a' h with ⟨b, hb, hor⟩
      exact ⟨b, by simp [hb], hor⟩

theorem getD_mem_of_lt {α : Type} [Inhabited α] (l : List α) (n : ℕ)
    (h : n < l.length) : l.getD n default ∈ l := by
  rw [List.getD_eq_getElem l default h]
  exact l.getElem_mem h

/-- The feed of the acting agent satisfies the feed-quality invariant. -/
theorem actorOf_feed (r : Rand) (t : ℕ) (net : Net) (hnet : qualOK net) :
    ∀ m ∈ (actorOf r t net).feed, 0 ≤ m.quality ∧ m.quality ≤ 1 := by
  intro m hm
  unfold actorOf at hm
  by_cases hlen : net.agents.length = 0
  · rw [List.length_eq_zero] at hlen
    rw [hlen] at hm
    have hd : ([] : List Agent).getD (r.pick t % ([] : List Agent).length) default =
        default := rfl
    rw [hd] at hm
    exact absurd hm (List.not_mem_nil m)
  · have hlt : r.pick t % net.agents.length < net.agents.length :=
      Nat.mod_lt _ (Nat.pos_of_ne_zero hlen)
    exact hnet _ (getD_mem_of_lt net.agents _ hlt) m hm

/-- The meme created or reshared at a timestep has quality in the unit
interval, given in-range quality draws and the feed invariant. -/
theorem chooseMeme_quality (cfg : Config) (r : Rand) (t : ℕ) (net : Net)
    (hq : ∀ s, 0 ≤ r.qdraw s ∧ r.qdraw s ≤ 1) (hnet : qualOK net) :
    0 ≤ (chooseMeme cfg r t (actorOf r t net)).quality ∧
      (chooseMeme cfg r t (actorOf r t net)).quality ≤ 1 := by
  have hfeed := actorOf_feed r t net hnet
  unfold chooseMeme
  cases hrole : (actorOf r t net).role with
  | bot => exact ⟨le_refl 0, by norm_num⟩
  | human =>
    by_cases hcoin : (r.orig t || (actorOf r t net).feed.isEmpty) = true
    · simp only [hcoin, if_pos]
      exact hq t
    · simp only [hcoin, Bool.false_eq_true, if_false]
      have hne : (actorOf r t net).feed ≠ [] := by
        intro hnil
        simp [hnil] at hcoin
      have hpos : 0 < (actorOf r t net).feed.length :=
        List.length_pos.mpr hne
      have hlt : r.rechoice t % (actorOf r t net).feed.length <
          (actorOf r t net).feed.length := Nat.mod_lt _ hpos
      exact hfeed _ (getD_mem_of_lt _ _ hlt)

/-- One timestep preserves the feed-quality invariant. -/
theorem step_qualOK (cfg : Config) (r : Rand) (t : ℕ) (net : Net)
    (hq : ∀ s, 0 ≤ r.qdraw s ∧ r.qdraw s ≤ 1) (hnet : qualOK net) :
    qualOK (step cfg r t net) := by
  intro a' ha' m hm
  rw [step] at ha'
  rcases applyPush_mem cfg.alpha (chooseMeme cfg r t (actorOf r t net))
      (actorOf r t net).followers 0 net.agents a' ha' with ⟨a, haa, hor⟩
  rcases hor with h1 | h1
  · exact hnet a haa m (by rw [h1] at hm; exact hm)
  · rw [h1] at hm
    have hm' : m ∈ (chooseMeme cfg r t (actorOf r t net) :: a.feed).take cfg.alpha := hm
    have hsub : m ∈ chooseMeme cfg r t (actorOf r t net) :: a.feed :=
      List.take_subset _ _ hm'
    rcases List.mem_cons.mp hsub with rfl | hmem
    · exact chooseMeme_quality cfg r t net hq hnet
    · exact hnet a haa m hmem

/-- The per-step human-average quality lies in the unit interval under
the feed-quality invariant. -/
theorem humanAvgQuality_unit (net : Net) (h : qualOK net) :
    0 ≤ humanAvgQuality net ∧ humanAvgQuality net ≤ 1 := by
  apply listMean_unit
  intro x hx
  rcases List.mem_map.mp hx with ⟨m, hm, rfl⟩
  rcases List.mem_flatten.mp hm with ⟨l, hl, hml⟩
  rcases List.mem_map.mp hl with ⟨a, ha, rfl⟩
  exact h a (List.mem_of_mem_filter ha) m hml

/-- All per-step quality values recorded along the engine loop lie in
the unit interval, and the loop spends at most its budget. -/
theorem runloop_time_hist (cfg : Config) (r : Rand)
    (hq : ∀ s, 0 ≤ r.qdraw s ∧ r.qdraw s ≤ 1) :
    ∀ (fuel t : ℕ) (net : Net) (hist : List ℚ), qualOK net →
      (∀ v ∈ hist, 0 ≤ v ∧ v ≤ 1) →
      (runloop cfg r fuel t net hist).time ≤ t + fuel ∧
      ∀ v ∈ (runloop cfg r fuel t net hist).hist, 0 ≤ v ∧ v ≤ 1 := by
  intro fuel
  induction fuel with
  | zero =>
    intro t net hist _ hh
    exact ⟨Nat.le_refl t, hh⟩
  | succ fuel ih =>
    intro t net hist hn hh
    have hn' : qualOK (step cfg r t net) := step_qualOK cfg r t net hq hn
    have hv := humanAvgQuality_unit (step cfg r t net) hn'
    have hh' : ∀ v ∈ humanAvgQuality (step cfg r t net) :: hist, 0 ≤ v ∧ v ≤ 1 := by
      intro v hv'
      rcases List.mem_cons.mp hv' with rfl | hmem
      · exact hv
      · exact hh v hmem
    rw [runloop]
    by_cases hc : monitorConverged cfg (humanAvgQuality (step cfg r t net) :: hist) = true
    · simp only [hc, if_pos]
      exact ⟨by omega, hh'⟩
    · simp only [hc, Bool.false_eq_true, if_false]
      have := ih (t + 1) (step cfg r t net) (humanAvgQuality (step cfg r t net) :: hist)
        hn' hh'
      exact ⟨by omega, this.2⟩

/-- The generated network starts with empty feeds. -/
theorem genNet_feeds_empty (cfg : Config) (targeting : Bool) (r : Rand) :
    ∀ a ∈ (genNet cfg targeting r).agents, a.feed = [] := by
  intro a ha
  rw [genNet] at ha
  rcases List.mem_map.mp ha with ⟨i, _, rfl⟩
  rfl

theorem genNet_qualOK (cfg : Config) (targeting : Bool) (r : Rand) :
    qualOK (genNet cfg targeting r) := by
  intro a ha m hm
  rw [genNet_feeds_empty cfg targeting r a ha] at hm
  exact absurd hm (List.not_mem_nil m)

/-- Claim C7 (spec-modelled): every run terminates, in the Converged or
the Exhausted state, within the bounded step budget, and the scalar
quality it returns lies in the closed interval [0,1], given in-range
quality draws. -/
theorem run_terminates_quality_unit (cfg : Config) (targeting : Bool) (r : Rand)
    (hq : ∀ s, 0 ≤ r.qdraw s ∧ r.qdraw s ≤ 1) :
    ((oneRun cfg targeting r).state = RunState.converged ∨
      (oneRun cfg targeting r).state = RunState.exhausted) ∧
    (oneRun cfg targeting r).steps ≤ cfg.budget ∧
    0 ≤ (oneRun cfg targeting r).quality ∧ (oneRun cfg targeting r).quality ≤ 1 := by
  have hout := runloop_time_hist cfg r hq cfg.budget 0 (genNet cfg targeting r) []
    (genNet_qualOK cfg targeting r) (by simp)
  refine ⟨?_, ?_, ?_⟩
  · cases hst : (oneRun cfg targeting r).state with
    | converged => exact Or.inl rfl
    | exhausted => exact Or.inr rfl
  · show (runloop cfg r cfg.budget 0 (genNet cfg targeting r) []).time ≤ cfg.budget
    have := hout.1
    omega
  · show 0 ≤ listMean ((runloop cfg r cfg.budget 0 (genNet cfg targeting r) []).hist.take cfg.w) ∧
      listMean ((runloop cfg r cfg.budget 0 (genNet cfg targeting r) []).hist.take cfg.w) ≤ 1
    apply listMean_unit
    intro v hv
    exact hout.2 v (List.take_subset _ _ hv)

/-- Witness for C7 at a concrete configuration and trace. -/
theorem run_terminates_quality_unit_witness :
    (0 : ℚ) ≤ rand1.qdraw 0 ∧
    0 ≤ (oneRun cfg1 false rand1).quality := by
  constructor
  · norm_num [rand1]
  · exact (run_terminates_quality_unit cfg1 false rand1
      fun s => ⟨by norm_num [rand1], by norm_num [rand1]⟩).2.2.1

/-- Pushing onto a capacity-truncated arrival log truncates the extended
log: eviction keeps exactly the alpha most recent arrivals. -/
theorem pushFeed_take (alpha : ℕ) (m : Meme) (g : List Meme) :
    pushFeed alpha m (g.take alpha) = (m :: g).take alpha := by
  cases alpha with
  | zero => rfl
  | succ n =>
    rw [pushFeed]
    simp [List.take_take, Nat.min_comm]

/-- Propagation commutes with the ghost arrival logs: if every feed is
the alpha most recent entries of its log, the same holds after pushing
the step's meme to the followers. -/
theorem applyPush_applyLog (alpha : ℕ) (m : Meme) (fl : List ℕ) :
    ∀ (i : ℕ) (l : List Agent) (logs : List (List Meme)),
      l.map Agent.feed = logs.map (fun g => g.take alpha) →
      (applyPush alpha m fl i l).map Agent.feed =
        (applyLog m fl i logs).map (fun g => g.take alpha) := by
  intro i l
  induction l generalizing i with
  | nil =>
    intro logs h
    cases logs with
    | nil => rfl
    | cons g gl => simp at h
  | cons a rest ih =>
    intro logs h
    cases logs with
    | nil => simp at h
    | cons g gl =>
      simp only [List.map_cons, List.cons.injEq] at h
      rcases h with ⟨hfeed, hrest⟩
      rw [applyPush, applyLog]
      simp only [List.map_cons, List.cons.injEq]
      refine ⟨?_, ih (i + 1) gl hrest⟩
      by_cases hc : i ∈ fl
      · simp only [if_pos hc]
        show pushFeed alpha m a.feed = (m :: g).take alpha
        rw [hfeed, pushFeed_take]
      · simp only [if_neg hc]
        exact hfeed

/-- Along the whole state trajectory, every feed is exactly the alpha
most recent arrivals of its ghost log, newest first. -/
theorem trace_feeds_eq_logs (cfg : Config) (r : Rand) (init : Net)
    (h0 : ∀ a ∈ init.agents, a.feed = []) :
    ∀ k : ℕ, (runTrace cfg r init k).1.agents.map Agent.feed =
      (logsAt cfg r init k).map (fun g => g.take cfg.alpha) := by
  intro k
  induction k with
  | zero =>
    show init.agents.map Agent.feed =
      (init.agents.map fun _ => ([] : List Meme)).map (fun g => g.take cfg.alpha)
    rw [List.map_map]
    exact List.map_congr_left fun a ha => by simp [Function.comp, h0 a ha]
  | succ k ih =>
    show (step cfg r k (runTrace cfg r init k).1).agents.map Agent.feed = _
    rw [step]
    exact applyPush_applyLog cfg.alpha _ _ 0 (runTrace cfg r init k).1.agents
      (logsAt cfg r init k) ih

/-- The engine loop walks the state trajectory: its final network is the
trajectory state at the number of steps it executed. -/
theorem runloop_net_on_trace (cfg : Config) (r : Rand) (init : Net) :
    ∀ fuel t : ℕ,
      (runloop cfg r fuel t (runTrace cfg r init t).1 (runTrace cfg r init t).2).net =
        (runTrace cfg r init
          (runloop cfg r fuel t (runTrace cfg r init t).1 (runTrace cfg r init t).2).time).1 := by
  intro fuel
  induction fuel with
  | zero => intro t; rfl
  | succ fuel ih =>
    intro t
    rw [runloop]
    by_cases hc : monitorConverged cfg
        (humanAvgQuality (step cfg r t (runTrace cfg r init t).1) ::
          (runTrace cfg r init t).2) = true
    · simp only [hc, if_pos]
      rfl
    · simp only [hc, Bool.false_eq_true, if_false]
      exact ih (t + 1)

/-- Claim C8 (spec-modelled): throughout every simulation run each
agent's feed holds at most alpha entries and the entries are exactly the
most recent arrivals newest-first (the alpha-prefix of the ghost arrival
log); the invariant is preserved by every timestep's propagation and
eviction, and the engine loop's states are exactly the trajectory
states. -/
theorem feeds_capacity_newest_first (cfg : Config) (r : Rand) (init : Net)
    (h0 : ∀ a ∈ init.agents, a.feed = []) (k : ℕ) :
    (runTrace cfg r init k).1.agents.map Agent.feed =
      (logsAt cfg r init k).map (fun g => g.take cfg.alpha) ∧
    (∀ a ∈ (runTrace cfg r init k).1.agents, a.feed.length ≤ cfg.alpha) ∧
    ∀ fuel : ℕ, (runloop cfg r fuel 0 init []).net =
      (runTrace cfg r init ((runloop cfg r fuel 0 init []).time)).1 := by
  refine ⟨trace_feeds_eq_logs cfg r init h0 k, ?_, ?_⟩
  · intro a ha
    have hmem : a.feed ∈ (runTrace cfg r init k).1.agents.map Agent.feed :=
      List.mem_map.mpr ⟨a, ha, rfl⟩
    rw [trace_feeds_eq_logs cfg r init h0 k] at hmem
    rcases List.mem_map.mp hmem with ⟨g, _, hg⟩
    rw [← hg]
    exact List.length_take_le cfg.alpha g
  · intro fuel
    exact runloop_net_on_trace cfg r init fuel 0

/-- Witness for C8 after one step from the generated network. -/
theorem feeds_capacity_newest_first_witness :
    (runTrace cfg1 rand1 (genNet cfg1 false rand1) 1).1.agents.map Agent.feed =
      (logsAt cfg1 rand1 (genNet cfg1 false rand1) 1).map (fun g => g.take cfg1.alpha) :=
  (feeds_capacity_newest_first cfg1 rand1 (genNet cfg1 false rand1)
    (genNet_feeds_empty cfg1 false rand1) 1).1

end BotModel
